import Mathlib

/-
Shallow embedding of the luhnoxide credit-card scanner (src/src/main.rs).

Modelling conventions:
* Rust `String` / `&str` values are embedded as `List Char`; byte indices
  coincide with character indices because every string the claims touch is
  ASCII (the regex character classes are modelled on their ASCII fragment,
  matching `char::to_digit(10)`, which is ASCII-only).
* Fallible operations (a Rust slice `s[a..b]` that can panic) return
  `Option`, with `none` marking the panic.
* The per-file scanning pipeline is modelled sequentially; the shared
  mutexed containers of the Rust program are a fold over per-file
  contributions (insertion order does not affect any counted aggregate).
-/

set_option autoImplicit false

/-- ASCII decimal digit, the fragment of the regex class matched by the
inputs of every claim; also the domain of Rust `char::to_digit(10)`. -/
def isDigitChar (c : Char) : Bool :=
  decide ('0' ≤ c) && decide (c ≤ '9')

/-- Embedding of Rust `char::to_digit(10)`: `some` exactly on ASCII digits. -/
def toDigit (c : Char) : Option Nat :=
  if isDigitChar c then some (c.toNat - '0'.toNat) else none

/-- Numeric value of a digit character (meaningful on ASCII digits only). -/
def digitVal (c : Char) : Nat := c.toNat - '0'.toNat

/-- The doubling step of the Luhn algorithm: `value *= 2; if value > 9 { value -= 9 }`
(from `is_valid_luhn`, main.rs lines 552-556). -/
def dblVal (d : Nat) : Nat :=
  if 9 < 2 * d then 2 * d - 9 else 2 * d

/-- The loop body of `is_valid_luhn` (main.rs lines 549-563): iterate over the
already-reversed character list carrying the running sum and the doubling
flag; `none` models the early `return false` on a non-digit character. -/
def luhnLoop : List Char → Nat → Bool → Option Nat
  | [], sum, _ => some sum
  | c :: rest, sum, dbl =>
    match toDigit c with
    | some d => luhnLoop rest (sum + (if dbl then dblVal d else d)) (!dbl)
    | none => none

/-- Embedding of `is_valid_luhn` (main.rs lines 544-566): iterate the
characters right to left, then test `sum % 10 == 0 && sum > 0`. -/
def is_valid_luhn (number : List Char) : Bool :=
  match luhnLoop number.reverse 0 false with
  | some sum => decide (sum % 10 = 0) && decide (0 < sum)
  | none => false

/-- Modelled from the spec (section 4.1 wording, for the refinement half of
claim C1): the accumulated Luhn sum over a list of characters already taken
right to left, alternating the doubling flag. -/
def luhnSumAux : List Char → Bool → Nat
  | [], _ => 0
  | c :: rest, dbl => (if dbl then dblVal (digitVal c) else digitVal c) + luhnSumAux rest (!dbl)

/-- Modelled from the spec (section 4.1): the Luhn checksum of a string,
traversed from its rightmost character, starting with no doubling. -/
def luhnSum (s : List Char) : Nat := luhnSumAux s.reverse false

-- Sanity lemma relating the source loop to the spec-side sum.

theorem luhnLoop_eq_some (l : List Char) (sum : Nat) (dbl : Bool)
    (h : ∀ c ∈ l, isDigitChar c) :
    luhnLoop l sum dbl = some (sum + luhnSumAux l dbl) := by
  induction l generalizing sum dbl with
  | nil => simp [luhnLoop, luhnSumAux]
  | cons c rest ih =>
    have hc : isDigitChar c := h c (List.mem_cons_self c rest)
    have hrest : ∀ x ∈ rest, isDigitChar x := fun x hx => h x (List.mem_cons_of_mem c hx)
    simp only [luhnLoop, toDigit, hc, if_true, luhnSumAux, digitVal]
    rw [ih _ _ hrest]
    congr 1
    omega

theorem luhnLoop_eq_none (l : List Char) (sum : Nat) (dbl : Bool)
    (h : ¬ ∀ c ∈ l, isDigitChar c) :
    luhnLoop l sum dbl = none := by
  induction l generalizing sum dbl with
  | nil => simp at h
  | cons c rest ih =>
    by_cases hc : isDigitChar c
    · have hrest : ¬ ∀ x ∈ rest, isDigitChar x := by
        intro hall
        exact h (by
          intro x hx
          rcases List.mem_cons.mp hx with rfl | hx
          · exact hc
          · exact hall x hx)
      simp only [luhnLoop, toDigit, hc, if_true]
      exact ih _ _ hrest
    · have hc' : isDigitChar c = false := by simpa using hc
      simp [luhnLoop, toDigit, hc']

theorem is_valid_luhn_iff (s : List Char) :
    is_valid_luhn s = true ↔
      ((∀ c ∈ s, isDigitChar c) ∧ 0 < luhnSum s ∧ luhnSum s % 10 = 0) := by
  by_cases h : ∀ c ∈ s.reverse, isDigitChar c
  · have h' : ∀ c ∈ s, isDigitChar c := by
      intro c hc
      exact h c (List.mem_reverse.mpr hc)
    rw [is_valid_luhn, luhnLoop_eq_some _ _ _ h]
    simp only [luhnSum, Nat.zero_add]
    constructor
    · intro hb
      simp only [Bool.and_eq_true, decide_eq_true_eq] at hb
      exact ⟨h', hb.2, hb.1⟩
    · intro ⟨_, hpos, hmod⟩
      simp only [Bool.and_eq_true, decide_eq_true_eq]
      exact ⟨hmod, hpos⟩
  · have h' : ¬ ∀ c ∈ s, isDigitChar c := by
      intro hall
      exact h (by
        intro c hc
        exact hall c (List.mem_reverse.mp hc))
    rw [is_valid_luhn, luhnLoop_eq_none _ _ _ h]
    simp only [Bool.false_eq_true, false_iff]
    intro ⟨hd, _⟩
    exact h' hd

theorem luhnSumAux_zeros (n : Nat) (dbl : Bool) :
    luhnSumAux (List.replicate n '0') dbl = 0 := by
  induction n generalizing dbl with
  | zero => simp [luhnSumAux]
  | succ k ih =>
    simp only [List.replicate, luhnSumAux, ih]
    have : digitVal '0' = 0 := by decide
    rw [this]
    simp [dblVal]

/-- Claim C1: the Luhn validator, on any input string, traverses characters
right to left with an alternating doubling flag starting at "no doubling",
doubling and subtracting 9 above 9, and accepts exactly when the accumulated
sum is positive and divisible by 10; any non-digit character yields invalid,
every all-zero string is invalid, "4532015112830366" is valid and
"4532015112830367" is not. -/
theorem luhn_validator_correct :
    (∀ s : List Char,
      is_valid_luhn s = true ↔
        ((∀ c ∈ s, isDigitChar c) ∧ 0 < luhnSum s ∧ luhnSum s % 10 = 0)) ∧
    (∀ s : List Char, (∃ c ∈ s, ¬ isDigitChar c) → is_valid_luhn s = false) ∧
    (∀ n : Nat, is_valid_luhn (List.replicate n '0') = false) ∧
    is_valid_luhn "4532015112830366".toList = true ∧
    is_valid_luhn "4532015112830367".toList = false := by
  refine ⟨is_valid_luhn_iff, ?_, ?_, by decide, by decide⟩
  · intro s ⟨c, hc, hnd⟩
    by_contra h
    have hv : is_valid_luhn s = true := by
      cases hb : is_valid_luhn s
      · exact absurd hb h
      · rfl
    exact hnd (((is_valid_luhn_iff s).mp hv).1 c hc)
  · intro n
    by_contra h
    have hv : is_valid_luhn (List.replicate n '0') = true := by
      cases hb : is_valid_luhn (List.replicate n '0')
      · exact absurd hb h
      · rfl
    have := ((is_valid_luhn_iff _).mp hv).2.1
    rw [luhnSum, List.reverse_replicate, luhnSumAux_zeros] at this
    exact Nat.lt_irrefl 0 this

/-- Witness for `luhn_validator_correct` at concrete inputs. -/
theorem luhn_validator_correct_witness :
    is_valid_luhn "4111111111111111".toList = true ∧
    is_valid_luhn "411a111111111111".toList = false ∧
    is_valid_luhn "0000000000000".toList = false :=
  ⟨(luhn_validator_correct.1 _).mpr ⟨by decide, by decide, by decide⟩,
   luhn_validator_correct.2.1 _ ⟨'a', by decide, by decide⟩,
   by
     have := luhn_validator_correct.2.2.1 13
     simpa using this⟩

/-- Embedding of `str::replace(['-', ' '], "")` as used by both
`identify_card_brand` (main.rs line 570) and `scan_file` (line 623): remove
every dash and space character. -/
def stripSeps (s : List Char) : List Char :=
  s.filter (fun c => !(c = '-' || c = ' '))

/-- A card brand rule (main.rs lines 14-18): the compiled form of the brand's
anchored regular expression is carried as a predicate on the character list. -/
structure CardBrand where
  name : List Char
  pattern : List Char → Bool
  lengths : List Nat

/-- Compiled `^4\d+`: a '4' followed by at least one digit, at the start. -/
def visaPat : List Char → Bool
  | a :: b :: _ => a = '4' && isDigitChar b
  | _ => false

/-- Compiled `^5[1-5]\d+|^2[2-7]\d+`. -/
def mastercardPat : List Char → Bool
  | a :: b :: c :: _ =>
    (a = '5' && (decide ('1' ≤ b) && decide (b ≤ '5')) && isDigitChar c) ||
    (a = '2' && (decide ('2' ≤ b) && decide (b ≤ '7')) && isDigitChar c)
  | _ => false

/-- Compiled `^3[47]\d+`. -/
def amexPat : List Char → Bool
  | a :: b :: c :: _ => a = '3' && (b = '4' || b = '7') && isDigitChar c
  | _ => false

/-- Compiled `^6(?:011|5\d{2}|4[4-9]\d)\d+`. -/
def discoverPat : List Char → Bool
  | a :: b :: c :: d :: e :: _ =>
    a = '6' &&
    ((b = '0' && c = '1' && d = '1') ||
     (b = '5' && isDigitChar c && isDigitChar d) ||
     (b = '4' && (decide ('4' ≤ c) && decide (c ≤ '9')) && isDigitChar d)) &&
    isDigitChar e
  | _ => false

/-- Compiled `^35\d+`. -/
def jcbPat : List Char → Bool
  | a :: b :: c :: _ => a = '3' && b = '5' && isDigitChar c
  | _ => false

/-- Compiled `^3(?:0[0-5]|[68]\d)\d+`. -/
def dinersPat : List Char → Bool
  | a :: b :: c :: d :: _ =>
    a = '3' &&
    ((b = '0' && (decide ('0' ≤ c) && decide (c ≤ '5'))) ||
     ((b = '6' || b = '8') && isDigitChar c)) &&
    isDigitChar d
  | _ => false

/-- Compiled `^62\d+`. -/
def unionpayPat : List Char → Bool
  | a :: b :: c :: _ => a = '6' && b = '2' && isDigitChar c
  | _ => false

/-- Compiled `^\d+`: at least one digit at the start. -/
def unknownPat : List Char → Bool
  | a :: _ => isDigitChar a
  | _ => false

/-- Embedding of the ordered static table `CARD_BRANDS` (main.rs lines 21-62). -/
def CARD_BRANDS : List CardBrand :=
  [⟨"Visa".toList, visaPat, [13, 16, 19]⟩,
   ⟨"Mastercard".toList, mastercardPat, [16]⟩,
   ⟨"American Express".toList, amexPat, [15]⟩,
   ⟨"Discover".toList, discoverPat, [16, 19]⟩,
   ⟨"JCB".toList, jcbPat, [16, 19]⟩,
   ⟨"Diners Club".toList, dinersPat, [14, 16, 19]⟩,
   ⟨"UnionPay".toList, unionpayPat, [16, 19]⟩,
   ⟨"Unknown".toList, unknownPat, [13, 14, 15, 16, 17, 18, 19]⟩]

/-- The `for brand in CARD_BRANDS` loop of `identify_card_brand`
(main.rs lines 572-578): return the first rule whose pattern matches and
whose length set contains the cleaned length. Every static pattern compiles,
so the `if let Ok(re)` guard never skips a rule. -/
def identifyAux : List CardBrand → List Char → Option (List Char)
  | [], _ => none
  | b :: rest, n =>
    if b.pattern n && b.lengths.contains n.length then some b.name
    else identifyAux rest n

/-- Embedding of `identify_card_brand` (main.rs lines 569-580). -/
def identify_card_brand (number : List Char) : Option (List Char) :=
  identifyAux CARD_BRANDS (stripSeps number)

theorem stripSeps_of_digits (s : List Char) (h : ∀ c ∈ s, isDigitChar c) :
    stripSeps s = s := by
  induction s with
  | nil => rfl
  | cons c rest ih =>
    have hc : isDigitChar c := h c (List.mem_cons_self c rest)
    have hne : (!(c = '-' || c = ' ')) = true := by
      revert hc
      cases hd : decide (c = '-') with
      | true =>
        have : c = '-' := of_decide_eq_true hd
        subst this
        intro hc
        exact absurd hc (by decide)
      | false =>
        cases hs : decide (c = ' ') with
        | true =>
          have : c = ' ' := of_decide_eq_true hs
          subst this
          intro hc
          exact absurd hc (by decide)
        | false =>
          intro _
          simp [of_decide_eq_false hd, of_decide_eq_false hs]
    simp only [stripSeps, List.filter] at *
    rw [hne]
    rw [ih (fun x hx => h x (List.mem_cons_of_mem c hx))]

theorem identifyAux_eq_find (bs : List CardBrand) (n : List Char) :
    identifyAux bs n =
      Option.map (fun b => b.name)
        (bs.find? (fun b => b.pattern n && b.lengths.contains n.length)) := by
  induction bs with
  | nil => rfl
  | cons b rest ih =>
    cases hb : (b.pattern n && b.lengths.contains n.length) with
    | true =>
      unfold identifyAux List.find?
      rw [hb]
      simp
    | false =>
      unfold identifyAux List.find?
      rw [hb]
      simpa using ih

/-- Claim C4: brand classification evaluates the static rule table in fixed
order, a rule matching exactly when its anchored pattern matches the digit
string and the length is in its accepted-length set, returning the first
matching rule's name; every 16-digit string starting with '4' classifies as
"Visa" (and hence never as "Unknown"), because the Visa rule precedes the
catch-all. -/
theorem brand_classifier_correct :
    (∀ s : List Char, (∀ c ∈ s, isDigitChar c) →
      identify_card_brand s =
        Option.map (fun b => b.name)
          (CARD_BRANDS.find? (fun b => b.pattern s && b.lengths.contains s.length))) ∧
    (∀ s : List Char, s.length = 16 → (∀ c ∈ s, isDigitChar c) →
      s.get? 0 = some '4' →
      identify_card_brand s = some ("Visa".toList) ∧
      identify_card_brand s ≠ some ("Unknown".toList)) := by
  constructor
  · intro s hdig
    rw [identify_card_brand, stripSeps_of_digits s hdig, identifyAux_eq_find]
  · intro s h16 hdig h0
    match s with
    | [] => simp at h16
    | [a] => simp at h16
    | a :: b :: u =>
      have ha : a = '4' := by
        simpa using h0
      subst ha
      have hb : isDigitChar b := hdig b (by simp)
      have hvp : visaPat ('4' :: b :: u) = true := by
        simp [visaPat, hb]
      have hlen : ([13, 16, 19] : List Nat).contains (('4' :: b :: u).length) = true := by
        rw [h16]
        decide
      have hmain : identify_card_brand ('4' :: b :: u) = some ("Visa".toList) := by
        rw [identify_card_brand, stripSeps_of_digits _ hdig, identifyAux_eq_find, CARD_BRANDS,
          List.find?_cons_of_pos _ (by
            show (visaPat ('4' :: b :: u) &&
              ([13, 16, 19] : List Nat).contains (('4' :: b :: u).length)) = true
            rw [hvp, hlen]
            rfl)]
        rfl
      refine ⟨hmain, ?_⟩
      rw [hmain]
      intro hcontra
      have := Option.some.inj hcontra
      exact absurd this (by decide)

/-- Witness for `brand_classifier_correct` at concrete digit strings. -/
theorem brand_classifier_correct_witness :
    identify_card_brand "5555555555554444".toList =
      Option.map (fun b => b.name)
        (CARD_BRANDS.find?
          (fun b => b.pattern "5555555555554444".toList &&
            b.lengths.contains "5555555555554444".toList.length)) ∧
    identify_card_brand "4532015112830366".toList = some ("Visa".toList) :=
  ⟨brand_classifier_correct.1 _ (by decide),
   (brand_classifier_correct.2 _ (by decide) (by decide) (by decide)).1⟩

/-- The `\s` class of the candidate regex (main.rs line 614), on its ASCII
fragment. -/
def isSpaceChar (c : Char) : Bool :=
  c = ' ' || c = '\t' || c = '\n' || c = '\x0b' || c = '\x0c' || c = '\r'

/-- The `[0-9-\s]` class of the candidate regex (main.rs line 614). -/
def isClassChar (c : Char) : Bool :=
  isDigitChar c || c = '-' || isSpaceChar c

/-- Length of the run of `[0-9-\s]` characters starting at index `i`,
capped by `fuel` (18 suffices for the `{11,18}` quantifier). -/
def classRunLen (s : List Char) : Nat → Nat → Nat
  | _, 0 => 0
  | i, fuel + 1 =>
    match s.get? i with
    | some c => if isClassChar c then classRunLen s (i + 1) fuel + 1 else 0
    | none => 0

/-- `[0-9]` test at index `i`. -/
def okDigitAt (s : List Char) (i : Nat) : Bool :=
  match s.get? i with
  | some c => isDigitChar c
  | none => false

/-- The `(?:\D|$)` test at index `i`: a non-digit character or the end. -/
def boundaryAt (s : List Char) (i : Nat) : Bool :=
  match s.get? i with
  | some c => !(isDigitChar c)
  | none => true

/-- Greedy backtracking over the `{11,18}` quantifier of
`[0-9](?:[0-9-\s]){11,18}[0-9](?:\D|$)` with the group starting at `g`:
try the repetition count `k` downwards and return the first `k ≥ 11` whose
continuation (a final digit at `g+1+k`, then a non-digit or the end at
`g+2+k`) succeeds. -/
def tryKs (s : List Char) (g : Nat) : Nat → Option Nat
  | 0 => none
  | k + 1 =>
    if k + 1 < 11 then none
    else if okDigitAt s (g + 1 + (k + 1)) && boundaryAt s (g + 2 + (k + 1)) then some (k + 1)
    else tryKs s g k

/-- Match the group `[0-9](?:[0-9-\s]){11,18}[0-9]` followed by `(?:\D|$)`
with the group starting at `g`; returns the group length and the end of the
whole match (the trailing `\D`, when present, is consumed). -/
def tryGroupAt (s : List Char) (g : Nat) : Option (Nat × Nat) :=
  if okDigitAt s g then
    match tryKs s g (min 18 (classRunLen s (g + 1) 18)) with
    | some k => some (k + 2, if (s.get? (g + 2 + k)).isSome then g + 3 + k else g + 2 + k)
    | none => none
  else none

/-- One match attempt of `(?:^|\D)(group)(?:\D|$)` whose overall match starts
at index `i`: the `^` alternative first (only at index 0), then the `\D`
alternative, which consumes the character at `i`. Returns
(group start, group length, match end). -/
def attemptAt (s : List Char) (i : Nat) : Option (Nat × Nat × Nat) :=
  match (if i = 0 then tryGroupAt s 0 else none) with
  | some p => some (0, p.1, p.2)
  | none =>
    match s.get? i with
    | some c =>
      if !(isDigitChar c) then
        match tryGroupAt s (i + 1) with
        | some p => some (i + 1, p.1, p.2)
        | none => none
      else none
    | none => none

/-- Leftmost match search from index `i` (fuel-bounded; the fuel
`s.length + 1 - i` always suffices since attempts stop past the end). -/
def findFromAux (s : List Char) : Nat → Nat → Option (Nat × Nat × Nat)
  | _, 0 => none
  | i, fuel + 1 =>
    match attemptAt s i with
    | some r => some r
    | none => findFromAux s (i + 1) fuel

/-- The leftmost match of the candidate regex at or after index `i`. -/
def findFrom (s : List Char) (i : Nat) : Option (Nat × Nat × Nat) :=
  findFromAux s i (s.length + 1 - i)

/-- Contiguous slice `s[start .. start+len)`. -/
def sliceAt (s : List Char) (start len : Nat) : List Char :=
  (s.drop start).take len

/-- Successive non-overlapping matches, resuming after each match end:
the embedding of `card_pattern.captures_iter(&line)` (main.rs line 621).
Each match is at least 13 characters wide, so `s.length + 1` fuel exceeds
any possible number of matches. -/
def capturesFromAux (s : List Char) : Nat → Nat → List (List Char)
  | _, 0 => []
  | i, fuel + 1 =>
    match findFrom s i with
    | none => []
    | some (g, len, mEnd) => sliceAt s g len :: capturesFromAux s mEnd fuel

/-- All capture-group strings of the candidate regex over one line, in
left-to-right order: the candidate extractor of `scan_file`. -/
def extractRuns (line : List Char) : List (List Char) :=
  capturesFromAux line 0 (line.length + 1)

theorem digit_isClass (c : Char) (h : isDigitChar c = true) : isClassChar c = true := by
  unfold isClassChar
  rw [h]
  rfl

theorem okDigitAt_eq_true (s : List Char) (i : Nat) (h : okDigitAt s i = true) :
    ∃ c, s.get? i = some c ∧ isDigitChar c = true := by
  unfold okDigitAt at h
  cases hg : s.get? i with
  | none => rw [hg] at h; exact absurd h (by simp)
  | some c =>
    rw [hg] at h
    exact ⟨c, rfl, h⟩

theorem classRunLen_sound (s : List Char) :
    ∀ fuel i j, j < classRunLen s i fuel →
      ∃ c, s.get? (i + j) = some c ∧ isClassChar c = true := by
  intro fuel
  induction fuel with
  | zero =>
    intro i j h
    simp [classRunLen] at h
  | succ f ih =>
    intro i j h
    unfold classRunLen at h
    cases hg : s.get? i with
    | none => rw [hg] at h; simp at h
    | some c =>
      rw [hg] at h
      have h' : j < (if isClassChar c then classRunLen s (i + 1) f + 1 else 0) := h
      by_cases hc : isClassChar c
      · rw [if_pos hc] at h'
        cases j with
        | zero => exact ⟨c, by simpa using hg, hc⟩
        | succ j' =>
          obtain ⟨d, hd, hcd⟩ := ih (i + 1) j' (by omega)
          refine ⟨d, ?_, hcd⟩
          rw [show i + (j' + 1) = i + 1 + j' by omega]
          exact hd
      · rw [if_neg hc] at h'
        omega

theorem tryKs_sound (s : List Char) (g : Nat) :
    ∀ k0 k, tryKs s g k0 = some k →
      11 ≤ k ∧ k ≤ k0 ∧ okDigitAt s (g + 1 + k) = true ∧
        boundaryAt s (g + 2 + k) = true := by
  intro k0
  induction k0 with
  | zero =>
    intro k h
    simp [tryKs] at h
  | succ k' ih =>
    intro k h
    unfold tryKs at h
    by_cases h11 : k' + 1 < 11
    · rw [if_pos h11] at h
      simp at h
    · rw [if_neg h11] at h
      by_cases hcond : (okDigitAt s (g + 1 + (k' + 1)) && boundaryAt s (g + 2 + (k' + 1))) = true
      · rw [if_pos hcond] at h
        have hk := Option.some.inj h
        subst hk
        simp only [Bool.and_eq_true] at hcond
        exact ⟨by omega, by omega, hcond.1, hcond.2⟩
      · rw [if_neg hcond] at h
        obtain ⟨ha, hb, hc, hd⟩ := ih k h
        exact ⟨ha, by omega, hc, hd⟩

theorem tryGroupAt_sound (s : List Char) (g len mEnd : Nat)
    (h : tryGroupAt s g = some (len, mEnd)) :
    13 ≤ len ∧ len ≤ 20 ∧
    okDigitAt s g = true ∧ okDigitAt s (g + len - 1) = true ∧
    boundaryAt s (g + len) = true ∧
    (∀ j, j < len → ∃ c, s.get? (g + j) = some c ∧ isClassChar c = true) ∧
    g + len ≤ s.length := by
  unfold tryGroupAt at h
  by_cases hd : okDigitAt s g = true
  · rw [if_pos hd] at h
    cases htk : tryKs s g (min 18 (classRunLen s (g + 1) 18)) with
    | none => rw [htk] at h; exact absurd h (by simp)
    | some k =>
      rw [htk] at h
      have hpair := Option.some.inj h
      have hlen : len = k + 2 := by
        have := congrArg Prod.fst hpair
        simp at this
        omega
      subst hlen
      obtain ⟨h11, hkle, hdig, hbound⟩ := tryKs_sound s g _ k htk
      have hkcl : k ≤ classRunLen s (g + 1) 18 := by omega
      have hk18 : k ≤ 18 := by omega
      have hfin : okDigitAt s (g + (k + 2) - 1) = true := by
        rw [show g + (k + 2) - 1 = g + 1 + k by omega]
        exact hdig
      have hbound' : boundaryAt s (g + (k + 2)) = true := by
        rw [show g + (k + 2) = g + 2 + k by omega]
        exact hbound
      have hle : g + (k + 2) ≤ s.length := by
        obtain ⟨c, hc, _⟩ := okDigitAt_eq_true s (g + 1 + k) hdig
        have := (List.get?_eq_some.mp hc).1
        omega
      refine ⟨by omega, by omega, hd, hfin, hbound', ?_, hle⟩
      intro j hj
      rcases Nat.eq_or_lt_of_le (Nat.zero_le j) with hj0 | hjpos
      · obtain ⟨c, hc, hcd⟩ := okDigitAt_eq_true s g hd
        refine ⟨c, ?_, digit_isClass c hcd⟩
        rw [← hj0, Nat.add_zero]
        exact hc
      · rcases Nat.lt_or_ge j (k + 1) with hjk | hjk
        · obtain ⟨c, hc, hcc⟩ := classRunLen_sound s 18 (g + 1) (j - 1) (by omega)
          refine ⟨c, ?_, hcc⟩
          rw [show g + j = g + 1 + (j - 1) by omega]
          exact hc
        · have hjeq : j = k + 1 := by omega
          subst hjeq
          obtain ⟨c, hc, hcd⟩ := okDigitAt_eq_true s (g + 1 + k) hdig
          refine ⟨c, ?_, digit_isClass c hcd⟩
          rw [show g + (k + 1) = g + 1 + k by omega]
          exact hc
  · rw [if_neg hd] at h
    exact absurd h (by simp)

theorem attemptAt_sound (s : List Char) (i g len mEnd : Nat)
    (h : attemptAt s i = some (g, len, mEnd)) :
    tryGroupAt s g = some (len, mEnd) ∧
    (g = 0 ∨ ∃ c, s.get? (g - 1) = some c ∧ isDigitChar c = false) := by
  unfold attemptAt at h
  cases hcar : (if i = 0 then tryGroupAt s 0 else none) with
  | some p =>
    rw [hcar] at h
    obtain ⟨hg, hlen, hmE⟩ : 0 = g ∧ p.1 = len ∧ p.2 = mEnd := by
      have := Option.some.inj h
      refine ⟨congrArg (fun t => t.1) this, ?_, ?_⟩
      · have := congrArg (fun t => t.2.1) this
        simpa using this
      · have := congrArg (fun t => t.2.2) this
        simpa using this
    subst hg
    subst hlen
    subst hmE
    have hi0 : i = 0 := by
      by_contra hi
      rw [if_neg hi] at hcar
      exact absurd hcar (by simp)
    rw [if_pos hi0] at hcar
    refine ⟨by rw [← hcar], Or.inl rfl⟩
  | none =>
    rw [hcar] at h
    cases hgi : s.get? i with
    | none => rw [hgi] at h; exact absurd h (by simp)
    | some c =>
      rw [hgi] at h
      have h' : (if (!isDigitChar c) = true then
          (match tryGroupAt s (i + 1) with
           | some p => some (i + 1, p.1, p.2)
           | none => none) else none) = some (g, len, mEnd) := h
      by_cases hdc : isDigitChar c = true
      · rw [hdc] at h'
        exact absurd h' (by simp)
      · have hdc' : isDigitChar c = false := by
          cases hb : isDigitChar c
          · rfl
          · exact absurd hb hdc
        rw [hdc'] at h'
        cases htg : tryGroupAt s (i + 1) with
        | none => rw [htg] at h'; exact absurd h' (by simp)
        | some p =>
          rw [htg] at h'
          obtain ⟨hg, hlen, hmE⟩ : i + 1 = g ∧ p.1 = len ∧ p.2 = mEnd := by
            have := Option.some.inj h'
            refine ⟨congrArg (fun t => t.1) this, ?_, ?_⟩
            · have := congrArg (fun t => t.2.1) this
              simpa using this
            · have := congrArg (fun t => t.2.2) this
              simpa using this
          subst hg
          subst hlen
          subst hmE
          refine ⟨by rw [← htg], Or.inr ⟨c, ?_, hdc'⟩⟩
          rw [show i + 1 - 1 = i by omega]
          exact hgi

theorem findFromAux_sound (s : List Char) :
    ∀ fuel i r, findFromAux s i fuel = some r →
      ∃ j, attemptAt s j = some r := by
  intro fuel
  induction fuel with
  | zero =>
    intro i r h
    simp [findFromAux] at h
  | succ f ih =>
    intro i r h
    unfold findFromAux at h
    cases ha : attemptAt s i with
    | some t =>
      rw [ha] at h
      exact ⟨i, by rw [ha, Option.some.inj h]⟩
    | none =>
      rw [ha] at h
      exact ih (i + 1) r h

theorem mem_capturesFromAux (s : List Char) :
    ∀ fuel i r, r ∈ capturesFromAux s i fuel →
      ∃ g len mEnd, r = sliceAt s g len ∧ tryGroupAt s g = some (len, mEnd) ∧
        (g = 0 ∨ ∃ c, s.get? (g - 1) = some c ∧ isDigitChar c = false) := by
  intro fuel
  induction fuel with
  | zero =>
    intro i r h
    simp [capturesFromAux] at h
  | succ f ih =>
    intro i r h
    unfold capturesFromAux at h
    cases hf : findFrom s i with
    | none =>
      rw [hf] at h
      simp at h
    | some t =>
      obtain ⟨g, len, mEnd⟩ := t
      rw [hf] at h
      rcases List.mem_cons.mp h with rfl | hrest
      · obtain ⟨j, ha⟩ := findFromAux_sound s _ i _ hf
        obtain ⟨htg, hleft⟩ := attemptAt_sound s j g len mEnd ha
        exact ⟨g, len, mEnd, rfl, htg, hleft⟩
      · exact ih mEnd r hrest

theorem sliceAt_get (s : List Char) (g len j : Nat) (hj : j < len) :
    (sliceAt s g len).get? j = s.get? (g + j) := by
  unfold sliceAt
  rw [List.get?_take hj, List.get?_drop]

theorem sliceAt_length (s : List Char) (g len : Nat) (h : g + len ≤ s.length) :
    (sliceAt s g len).length = len := by
  unfold sliceAt
  rw [List.length_take, List.length_drop]
  omega

theorem sliceAt_decomp (s : List Char) (g len : Nat) :
    s = s.take g ++ sliceAt s g len ++ s.drop (g + len) := by
  have h1 : s.take g ++ s.drop g = s := List.take_append_drop g s
  have h2 : (s.drop g).take len ++ (s.drop g).drop len = s.drop g :=
    List.take_append_drop len (s.drop g)
  have h3 : (s.drop g).drop len = s.drop (g + len) := by
    rw [List.drop_drop]
  calc s = s.take g ++ s.drop g := h1.symm
  _ = s.take g ++ ((s.drop g).take len ++ (s.drop g).drop len) := by rw [h2]
  _ = s.take g ++ sliceAt s g len ++ s.drop (g + len) := by
      rw [h3, ← List.append_assoc]
      rfl

/-- Claim C5 (amended): every candidate the extractor returns for a line is a
contiguous substring of the line that starts and ends with a digit, contains
only digit, dash and whitespace characters, has total length (separators
included) between 13 and 20, and is bounded on the left by the line start or
a non-digit character and on the right by a non-digit character or the line
end. (The original claim's bounds 12..19, and its promise that every such
run is extracted, fail on the code: see the counterexample.) -/
theorem candidate_extractor_sound :
    ∀ (line r : List Char), r ∈ extractRuns line →
      13 ≤ r.length ∧ r.length ≤ 20 ∧
      (∀ c ∈ r, isClassChar c = true) ∧
      (∃ c, r.get? 0 = some c ∧ isDigitChar c = true) ∧
      (∃ c, r.get? (r.length - 1) = some c ∧ isDigitChar c = true) ∧
      ∃ g, line = line.take g ++ r ++ line.drop (g + r.length) ∧
        (g = 0 ∨ ∃ c, line.get? (g - 1) = some c ∧ isDigitChar c = false) ∧
        boundaryAt line (g + r.length) = true := by
  intro line r hmem
  obtain ⟨g, len, mEnd, hr, htg, hleft⟩ :=
    mem_capturesFromAux line (line.length + 1) 0 r hmem
  obtain ⟨h13, h20, hd0, hdlast, hbound, hclass, hle⟩ :=
    tryGroupAt_sound line g len mEnd htg
  have hlen : r.length = len := by
    rw [hr]
    exact sliceAt_length line g len hle
  have hget : ∀ j, j < len → r.get? j = line.get? (g + j) := by
    intro j hj
    rw [hr]
    exact sliceAt_get line g len j hj
  refine ⟨by omega, by omega, ?_, ?_, ?_, g, ?_, hleft, ?_⟩
  · intro c hc
    obtain ⟨j, hj⟩ := List.mem_iff_get?.mp hc
    have hjlt : j < len := by
      have := (List.get?_eq_some.mp hj).1
      omega
    obtain ⟨d, hd, hcd⟩ := hclass j hjlt
    rw [hget j hjlt] at hj
    rw [hj] at hd
    rw [Option.some.inj hd]
    exact hcd
  · obtain ⟨c, hc, hcd⟩ := okDigitAt_eq_true line g hd0
    refine ⟨c, ?_, hcd⟩
    rw [hget 0 (by omega), Nat.add_zero]
    exact hc
  · obtain ⟨c, hc, hcd⟩ := okDigitAt_eq_true line (g + len - 1) hdlast
    refine ⟨c, ?_, hcd⟩
    rw [hlen, hget (len - 1) (by omega), show g + (len - 1) = g + len - 1 by omega]
    exact hc
  · rw [hlen, hr]
    exact sliceAt_decomp line g len
  · rw [hlen]
    exact hbound

/-- Witness for `candidate_extractor_sound`: the run extracted from the line
"pan=4532 0151 1283 0366;" is at least 13 characters wide. -/
theorem candidate_extractor_sound_witness :
    13 ≤ ("4532 0151 1283 0366".toList : List Char).length :=
  (candidate_extractor_sound "pan=4532 0151 1283 0366;".toList
    "4532 0151 1283 0366".toList (by decide)).1

/-- Counterexample to claim C5 as stated: a 12-character digit run (inside
the claimed 12..19 bound) is not extracted; a 20-character run (outside the
claimed bound) is extracted; and of two valid runs separated by one single
space only the first is extracted, because the trailing non-digit of the
first match is consumed. -/
theorem candidate_extractor_claim_false :
    extractRuns "123456789012".toList = [] ∧
    extractRuns "1111-2222-3333-44445".toList = ["1111-2222-3333-44445".toList] ∧
    extractRuns "4532015112830366 4532015112830366".toList =
      ["4532015112830366".toList] := by
  refine ⟨by decide, by decide, by decide⟩

/-- The last `n` characters of a string, as computed at main.rs line 632:
`chars().rev().take(4)` then reversed back. -/
def lastN (n : Nat) (s : List Char) : List Char :=
  (s.reverse.take n).reverse

/-- Embedding of the `CardMatch` record (main.rs lines 65-75). -/
structure CardMatch where
  brand : List Char
  full_pan : List Char
  bin : List Char
  last_four : List Char
  length : Nat
  file_path : List Char
  line_number : Nat
  line_content : List Char
deriving DecidableEq

/-- The `CardMatch` construction of `scan_file` (main.rs lines 628-637). -/
def mkCardMatch (brand pan fp : List Char) (ln : Nat) (line : List Char) : CardMatch :=
  { brand := brand, full_pan := pan, bin := pan.take 6, last_four := lastN 4 pan,
    length := pan.length, file_path := fp, line_number := ln, line_content := line }

/-- Embedding of `masked_pan` (main.rs lines 105-109): BIN, then
`length - 10` mask characters, then the last four. -/
def masked_pan (m : CardMatch) : List Char :=
  m.bin ++ List.replicate (m.length - 10) 'X' ++ m.last_four

/-- Whether `pat` is an initial segment of the string. -/
def listStartsWith : List Char → List Char → Bool
  | _, [] => true
  | [], _ :: _ => false
  | c :: cs, p :: ps => c = p && listStartsWith cs ps

/-- Embedding of `str::contains(pat)`. -/
def occursIn (pat : List Char) : List Char → Bool
  | [] => pat.isEmpty
  | c :: cs => listStartsWith (c :: cs) pat || occursIn pat cs

/-- Embedding of `str::replace(pat, rep)`: replace every non-overlapping
occurrence, left to right, never rescanning a replacement. (All patterns
the program passes are nonempty; the empty pattern is left untouched.) -/
def replaceAll (hay pat rep : List Char) : List Char :=
  match hay with
  | [] => []
  | c :: cs =>
    if pat.length ≠ 0 ∧ listStartsWith (c :: cs) pat = true
    then rep ++ replaceAll (cs.drop (pat.length - 1)) pat rep
    else c :: replaceAll cs pat rep
termination_by hay.length
decreasing_by
  · simp only [List.length_drop, List.length_cons]
    omega
  · simp only [List.length_cons]
    omega

/-- Embedding of `mask_line_content` (main.rs lines 111-153). The code
builds both 4-4-4-4 grouped patterns with byte slices `full_pan[0..4]`,
`[4..8]`, `[8..12]`, `[12..16]` unconditionally once the plain substring
test fails; when `full_pan` has fewer than 16 characters that slice is out
of range and the Rust code panics, modelled as `none`. -/
def mask_line_content (m : CardMatch) : Option (List Char) :=
  let digits := m.full_pan
  let line := m.line_content
  if occursIn digits line then
    some (replaceAll line digits (masked_pan m))
  else if 16 ≤ digits.length then
    let g1 := (digits.drop 0).take 4
    let g2 := (digits.drop 4).take 4
    let g3 := (digits.drop 8).take 4
    let g4 := (digits.drop 12).take 4
    let pSpace := g1 ++ [' '] ++ g2 ++ [' '] ++ g3 ++ [' '] ++ g4
    let pDash := g1 ++ ['-'] ++ g2 ++ ['-'] ++ g3 ++ ['-'] ++ g4
    some (if occursIn pSpace line then replaceAll line pSpace (masked_pan m)
      else if occursIn pDash line then replaceAll line pDash (masked_pan m)
      else line)
  else none

/-- The per-candidate body of the capture loop of `scan_file`
(main.rs lines 622-645): strip separators, check length 13..=19 and Luhn,
classify, and build the match record. -/
def processCandidate (fp : List Char) (ln : Nat) (line raw : List Char) : List CardMatch :=
  let potential := stripSeps raw
  if (decide (13 ≤ potential.length) && decide (potential.length ≤ 19)) &&
      is_valid_luhn potential then
    match identify_card_brand potential with
    | some brand => [mkCardMatch brand potential fp ln line]
    | none => []
  else []

/-- All matches pushed for one decoded line (main.rs line 621), in capture
order. -/
def scanLine (fp : List Char) (ln : Nat) (line : List Char) : List CardMatch :=
  (extractRuns line).bind (processCandidate fp ln line)

/-- A file presented to `scan_file`: either `File::open` fails, or the
reader yields a sequence of line results (`none` is an undecodable line). -/
inductive FileInput where
  | openFail : FileInput
  | content : List (Option (List Char)) → FileInput
deriving DecidableEq

/-- The line loop of `scan_file` (main.rs lines 618-657) on the remaining
line results, `idx` being the 0-based index of the next line: the matches
pushed, and whether a decode error ended the file early. -/
def scanContent (fp : List Char) : Nat → List (Option (List Char)) → List CardMatch × Bool
  | _, [] => ([], false)
  | _, none :: _ => ([], true)
  | idx, some line :: rest =>
    let ms := scanLine fp (idx + 1) line
    let r := scanContent fp (idx + 1) rest
    (ms ++ r.1, r.2)

/-- The contributions of the scan tasks to the three shared stores of `main`
(results vector, files-with-cards set, skipped-files vector). -/
structure ScanState where
  results : List CardMatch
  files_with_cards : List (List Char)
  skipped_files : List (List Char)
deriving DecidableEq

/-- Per-file contribution of `scan_file` (main.rs lines 604-674): an open
failure or a decode failure pushes the path onto the skipped list (a decode
failure returns before the files-with-cards insertion, retaining matches of
earlier lines); otherwise the path joins files_with_cards when a match was
found. -/
def scanFileM (f : List Char × FileInput) : ScanState :=
  match f.2 with
  | FileInput.openFail => ⟨[], [], [f.1]⟩
  | FileInput.content lines =>
    if (scanContent f.1 0 lines).2
    then ⟨(scanContent f.1 0 lines).1, [], [f.1]⟩
    else ⟨(scanContent f.1 0 lines).1,
      if (scanContent f.1 0 lines).1.isEmpty then [] else [f.1], []⟩

/-- `HashSet::insert` on the insertion-ordered list model of the set. -/
def insertPath (st : List (List Char)) (p : List Char) : List (List Char) :=
  if p ∈ st then st else st ++ [p]

def stepScan (st : ScanState) (f : List Char × FileInput) : ScanState :=
  ⟨st.results ++ (scanFileM f).results,
   (scanFileM f).files_with_cards.foldl insertPath st.files_with_cards,
   st.skipped_files ++ (scanFileM f).skipped_files⟩

/-- Sequential model of the orchestrated scan (main.rs lines 793-811): the
contents of the shared stores once every per-file task has merged. -/
def runScan (files : List (List Char × FileInput)) : ScanState :=
  files.foldl stepScan ⟨[], [], []⟩

/-- The summary fields claims C8 and C10 are about. -/
structure ScanTotals where
  total_files_scanned : Nat
  total_files_with_cards : Nat
  total_cards_found : Nat
  clean_files : Nat
  skipped_files : List (List Char)
deriving DecidableEq

/-- The summary assignments of `main` (main.rs lines 758-761 and 814-852):
in particular `clean_files = total_files_scanned - total_files_with_cards`
(line 827), a usize subtraction. -/
def summarize (files : List (List Char × FileInput)) : ScanTotals :=
  let st := runScan files
  ⟨files.length, st.files_with_cards.length, st.results.length,
   files.length - st.files_with_cards.length, st.skipped_files⟩

/-- The risk bucket of a per-file match count (main.rs lines 837-843). -/
def risk_level (cards_in_file : Nat) : List Char :=
  if 10 < cards_in_file then "high".toList
  else if 3 < cards_in_file then "medium".toList
  else "low".toList

theorem lastN_append_right (l c : List Char) (n : Nat) (h : c.length = n) :
    lastN n (l ++ c) = c := by
  unfold lastN
  rw [List.reverse_append]
  have hn : n = c.reverse.length := by rw [List.length_reverse, h]
  rw [hn, List.take_left, List.reverse_reverse]

theorem take_append_left (l r : List Char) (n : Nat) (h : l.length = n) :
    (l ++ r).take n = l := by
  rw [← h, List.take_left]

theorem lastN_length (n : Nat) (s : List Char) :
    (lastN n s).length = min n s.length := by
  unfold lastN
  rw [List.length_reverse, List.length_take, List.length_reverse]

/-- Claim C6: for a CardMatch built from a PAN of length 13..19, maskedPAN
is the BIN, then `length - 10` mask characters, then the last four; it has
the same length as the PAN and preserves its first six and last four
characters; on "4532015112830366" it is "453201XXXXXX0366". -/
theorem masked_pan_correct :
    (∀ (brand fp line pan : List Char) (ln : Nat),
      13 ≤ pan.length → pan.length ≤ 19 →
      masked_pan (mkCardMatch brand pan fp ln line) =
        pan.take 6 ++ List.replicate (pan.length - 10) 'X' ++ lastN 4 pan ∧
      (masked_pan (mkCardMatch brand pan fp ln line)).length = pan.length ∧
      (masked_pan (mkCardMatch brand pan fp ln line)).take 6 =
        (mkCardMatch brand pan fp ln line).bin ∧
      lastN 4 (masked_pan (mkCardMatch brand pan fp ln line)) =
        (mkCardMatch brand pan fp ln line).last_four) ∧
    masked_pan (mkCardMatch "Visa".toList "4532015112830366".toList
        "f.txt".toList 1 []) = "453201XXXXXX0366".toList := by
  constructor
  · intro brand fp line pan ln h13 h19
    have hbin : ((mkCardMatch brand pan fp ln line).bin).length = 6 := by
      show (pan.take 6).length = 6
      rw [List.length_take]
      omega
    have hlf : ((mkCardMatch brand pan fp ln line).last_four).length = 4 := by
      show (lastN 4 pan).length = 4
      rw [lastN_length]
      omega
    refine ⟨rfl, ?_, ?_, ?_⟩
    · unfold masked_pan
      rw [List.length_append, List.length_append, List.length_replicate, hbin, hlf]
      show 6 + (pan.length - 10) + 4 = pan.length
      omega
    · unfold masked_pan
      rw [List.append_assoc]
      exact take_append_left _ _ 6 hbin
    · unfold masked_pan
      exact lastN_append_right _ _ 4 hlf
  · decide

/-- Witness for `masked_pan_correct` at a 13-digit PAN. -/
theorem masked_pan_correct_witness :
    (masked_pan (mkCardMatch "Visa".toList "4222222222222".toList
      "f.txt".toList 1 [])).length = "4222222222222".toList.length :=
  (masked_pan_correct.1 "Visa".toList "f.txt".toList [] "4222222222222".toList 1
    (by decide) (by decide)).2.1

/-- Claim C7: risk-bucket assignment is a pure function of the per-file
match count with disjoint buckets: for a file with at least one match the
bucket is high exactly when the count exceeds 10, medium exactly when it is
between 4 and 10, low exactly when it is between 1 and 3; counts 3, 4, 10
and 11 land in low, medium, medium and high. -/
theorem risk_buckets_correct :
    (∀ n : Nat, 1 ≤ n →
      ((risk_level n = "high".toList ↔ 10 < n) ∧
       (risk_level n = "medium".toList ↔ 4 ≤ n ∧ n ≤ 10) ∧
       (risk_level n = "low".toList ↔ 1 ≤ n ∧ n ≤ 3))) ∧
    risk_level 3 = "low".toList ∧ risk_level 4 = "medium".toList ∧
    risk_level 10 = "medium".toList ∧ risk_level 11 = "high".toList := by
  refine ⟨?_, by decide, by decide, by decide, by decide⟩
  intro n h1
  unfold risk_level
  split_ifs with hh hm
  · exact ⟨iff_of_true rfl hh,
      iff_of_false (by decide) (by omega),
      iff_of_false (by decide) (by omega)⟩
  · exact ⟨iff_of_false (by decide) hh,
      iff_of_true rfl (by omega),
      iff_of_false (by decide) (by omega)⟩
  · exact ⟨iff_of_false (by decide) hh,
      iff_of_false (by decide) (by omega),
      iff_of_true rfl (by omega)⟩

/-- Witness for `risk_buckets_correct` at count 5. -/
theorem risk_buckets_correct_witness :
    risk_level 5 = "medium".toList :=
  ((risk_buckets_correct.1 5 (by decide)).2.1).mpr ⟨by decide, by decide⟩

/-- Claim C3 is wrong about the code (code bug): the pipeline itself
produces a CardMatch for the 13-digit PAN 4222222222222 written as
"4222-2222-2222-2", and on that match `mask_line_content` reaches the
4-4-4-4 pattern construction and panics on the byte slice
`full_pan[12..16]` (modelled as `none`) instead of returning the line
unmodified. -/
theorem mask_line_content_panics_on_short_pan :
    (mkCardMatch "Visa".toList "4222222222222".toList "card.txt".toList 1
        "4222-2222-2222-2".toList) ∈
      (runScan [("card.txt".toList,
        FileInput.content [some "4222-2222-2222-2".toList])]).results ∧
    mask_line_content (mkCardMatch "Visa".toList "4222222222222".toList
      "card.txt".toList 1 "4222-2222-2222-2".toList) = none := by
  exact ⟨by decide, by decide⟩

theorem mem_processCandidate (fp line raw : List Char) (ln : Nat) (m : CardMatch)
    (h : m ∈ processCandidate fp ln line raw) :
    ∃ brand, identify_card_brand (stripSeps raw) = some brand ∧
      m = mkCardMatch brand (stripSeps raw) fp ln line ∧
      13 ≤ (stripSeps raw).length ∧ (stripSeps raw).length ≤ 19 ∧
      is_valid_luhn (stripSeps raw) = true := by
  have h' : m ∈ (if (decide (13 ≤ (stripSeps raw).length) &&
        decide ((stripSeps raw).length ≤ 19)) && is_valid_luhn (stripSeps raw) then
      (match identify_card_brand (stripSeps raw) with
       | some brand => [mkCardMatch brand (stripSeps raw) fp ln line]
       | none => [])
    else []) := h
  by_cases hc : ((decide (13 ≤ (stripSeps raw).length) &&
      decide ((stripSeps raw).length ≤ 19)) && is_valid_luhn (stripSeps raw)) = true
  · rw [if_pos hc] at h'
    simp only [Bool.and_eq_true, decide_eq_true_eq] at hc
    cases hb : identify_card_brand (stripSeps raw) with
    | none =>
      rw [hb] at h'
      exact absurd h' (by simp)
    | some brand =>
      rw [hb] at h'
      have hm : m = mkCardMatch brand (stripSeps raw) fp ln line := by
        simpa using h'
      exact ⟨brand, rfl, hm, hc.1.1, hc.1.2, hc.2⟩
  · rw [if_neg hc] at h'
    exact absurd h' (by simp)

theorem mem_scanLine (fp line : List Char) (ln : Nat) (m : CardMatch)
    (h : m ∈ scanLine fp ln line) :
    ∃ raw ∈ extractRuns line, m ∈ processCandidate fp ln line raw := by
  unfold scanLine at h
  exact List.mem_bind.mp h

theorem mem_scanContent (fp : List Char) :
    ∀ (lines : List (Option (List Char))) (idx : Nat) (m : CardMatch),
      m ∈ (scanContent fp idx lines).1 →
      ∃ j line, lines.get? j = some (some line) ∧
        m ∈ scanLine fp (idx + j + 1) line := by
  intro lines
  induction lines with
  | nil =>
    intro idx m h
    simp [scanContent] at h
  | cons l rest ih =>
    intro idx m h
    cases l with
    | none => simp [scanContent] at h
    | some line =>
      have h' : m ∈ scanLine fp (idx + 1) line ++ (scanContent fp (idx + 1) rest).1 := h
      rcases List.mem_append.mp h' with h1 | h2
      · exact ⟨0, line, rfl, h1⟩
      · obtain ⟨j, line', hg, hm⟩ := ih (idx + 1) m h2
        refine ⟨j + 1, line', hg, ?_⟩
        rw [show idx + (j + 1) + 1 = idx + 1 + j + 1 by omega]
        exact hm

theorem mem_scanFileM (f : List Char × FileInput) (m : CardMatch)
    (h : m ∈ (scanFileM f).results) :
    ∃ lines, f.2 = FileInput.content lines ∧ m ∈ (scanContent f.1 0 lines).1 := by
  unfold scanFileM at h
  cases hf : f.2 with
  | openFail =>
    rw [hf] at h
    exact absurd h (by simp)
  | content lines =>
    rw [hf] at h
    have h' : m ∈ (if (scanContent f.1 0 lines).2
        then (⟨(scanContent f.1 0 lines).1, [], [f.1]⟩ : ScanState)
        else ⟨(scanContent f.1 0 lines).1,
          if (scanContent f.1 0 lines).1.isEmpty then [] else [f.1], []⟩).results := h
    refine ⟨lines, rfl, ?_⟩
    by_cases hb : (scanContent f.1 0 lines).2 = true
    · rw [if_pos hb] at h'
      exact h'
    · rw [if_neg hb] at h'
      exact h'

theorem mem_runScan_results (files : List (List Char × FileInput)) :
    ∀ (init : ScanState) (m : CardMatch),
      m ∈ (files.foldl stepScan init).results →
      m ∈ init.results ∨ ∃ f ∈ files, m ∈ (scanFileM f).results := by
  induction files with
  | nil =>
    intro init m h
    exact Or.inl h
  | cons f rest ih =>
    intro init m h
    rcases ih (stepScan init f) m h with h1 | ⟨g, hg, hm⟩
    · have h' : m ∈ init.results ++ (scanFileM f).results := h1
      rcases List.mem_append.mp h' with ha | hb
      · exact Or.inl ha
      · exact Or.inr ⟨f, List.mem_cons_self f rest, hb⟩
    · exact Or.inr ⟨g, List.mem_cons_of_mem f hg, hm⟩

/-- Claim C2: every CardMatch the scanning pipeline produces has length in
13..19 equal to the length of its digit-only fullPAN, a Luhn-valid all-digit
fullPAN, a bin that is exactly the first 6 characters of fullPAN, a lastFour
that is exactly the last 4, a 1-based line number pointing at its
originating line, and the verbatim original line text. -/
theorem card_match_invariants :
    ∀ (files : List (List Char × FileInput)) (m : CardMatch),
      m ∈ (runScan files).results →
      13 ≤ m.length ∧ m.length ≤ 19 ∧ m.length = m.full_pan.length ∧
      is_valid_luhn m.full_pan = true ∧ (∀ c ∈ m.full_pan, isDigitChar c) ∧
      m.bin = m.full_pan.take 6 ∧ m.bin.length = 6 ∧
      m.last_four = lastN 4 m.full_pan ∧ m.last_four.length = 4 ∧
      1 ≤ m.line_number ∧
      ∃ f ∈ files, f.1 = m.file_path ∧
        ∃ lines, f.2 = FileInput.content lines ∧
          lines.get? (m.line_number - 1) = some (some m.line_content) := by
  intro files m h
  rcases mem_runScan_results files ⟨[], [], []⟩ m h with h0 | ⟨f, hf, hm⟩
  · exact absurd h0 (by simp)
  · obtain ⟨lines, hcontent, hms⟩ := mem_scanFileM f m hm
    obtain ⟨j, line, hget, hline⟩ := mem_scanContent f.1 lines 0 m hms
    obtain ⟨raw, hraw, hpc⟩ := mem_scanLine f.1 line (0 + j + 1) m hline
    obtain ⟨brand, hbrand, hmk, h13, h19, hluhn⟩ :=
      mem_processCandidate f.1 line raw (0 + j + 1) m hpc
    subst hmk
    have hdig : ∀ c ∈ stripSeps raw, isDigitChar c :=
      ((is_valid_luhn_iff (stripSeps raw)).mp hluhn).1
    refine ⟨h13, h19, rfl, hluhn, hdig, rfl, ?_, rfl, ?_, by
        show 1 ≤ 0 + j + 1
        omega, f, hf, rfl, lines, hcontent, ?_⟩
    · show ((stripSeps raw).take 6).length = 6
      rw [List.length_take]
      omega
    · show (lastN 4 (stripSeps raw)).length = 4
      rw [lastN_length]
      omega
    · show lines.get? (0 + j + 1 - 1) = some (some line)
      rw [show 0 + j + 1 - 1 = j by omega]
      exact hget

/-- Witness for `card_match_invariants`: the match produced for a one-line
file holding a bare Visa PAN. -/
theorem card_match_invariants_witness :
    ((mkCardMatch "Visa".toList "4532015112830366".toList "f.txt".toList 1
        "4532015112830366".toList).bin).length = 6 :=
  (card_match_invariants
    [("f.txt".toList, FileInput.content [some "4532015112830366".toList])]
    (mkCardMatch "Visa".toList "4532015112830366".toList "f.txt".toList 1
      "4532015112830366".toList)
    (by decide)).2.2.2.2.2.2.1

theorem scanContent_decode_split (fp : List Char) (pre : List (List Char)) :
    ∀ (rest : List (Option (List Char))) (idx : Nat),
      scanContent fp idx (pre.map some ++ none :: rest) =
        ((scanContent fp idx (pre.map some)).1, true) := by
  induction pre with
  | nil => intro rest idx; rfl
  | cons l pre' ih =>
    intro rest idx
    show (scanLine fp (idx + 1) l ++
        (scanContent fp (idx + 1) (pre'.map some ++ none :: rest)).1,
        (scanContent fp (idx + 1) (pre'.map some ++ none :: rest)).2) = _
    rw [ih rest (idx + 1)]
    rfl

theorem scanFileM_content_err (p : List Char) (lines : List (Option (List Char)))
    (ms : List CardMatch) (hb : scanContent p 0 lines = (ms, true)) :
    scanFileM (p, FileInput.content lines) = ⟨ms, [], [p]⟩ := by
  show (if (scanContent p 0 lines).2
      then (⟨(scanContent p 0 lines).1, [], [p]⟩ : ScanState)
      else ⟨(scanContent p 0 lines).1,
        if (scanContent p 0 lines).1.isEmpty then [] else [p], []⟩) = ⟨ms, [], [p]⟩
  rw [hb]
  rfl

theorem runScan_results_acc (files : List (List Char × FileInput)) :
    ∀ init : ScanState,
      (files.foldl stepScan init).results = init.results ++ (runScan files).results := by
  induction files with
  | nil => intro init; simp [runScan]
  | cons f rest ih =>
    intro init
    show (rest.foldl stepScan (stepScan init f)).results = _
    rw [ih (stepScan init f)]
    have h2 : (runScan (f :: rest)).results =
        (stepScan ⟨[], [], []⟩ f).results ++ (runScan rest).results := by
      show (rest.foldl stepScan (stepScan ⟨[], [], []⟩ f)).results = _
      rw [ih (stepScan ⟨[], [], []⟩ f)]
    rw [h2]
    show (init.results ++ (scanFileM f).results) ++ (runScan rest).results =
      init.results ++ (([] ++ (scanFileM f).results) ++ (runScan rest).results)
    rw [List.nil_append, List.append_assoc]

theorem runScan_skipped_acc (files : List (List Char × FileInput)) :
    ∀ init : ScanState,
      (files.foldl stepScan init).skipped_files =
        init.skipped_files ++ (runScan files).skipped_files := by
  induction files with
  | nil => intro init; simp [runScan]
  | cons f rest ih =>
    intro init
    show (rest.foldl stepScan (stepScan init f)).skipped_files = _
    rw [ih (stepScan init f)]
    have h2 : (runScan (f :: rest)).skipped_files =
        (stepScan ⟨[], [], []⟩ f).skipped_files ++ (runScan rest).skipped_files := by
      show (rest.foldl stepScan (stepScan ⟨[], [], []⟩ f)).skipped_files = _
      rw [ih (stepScan ⟨[], [], []⟩ f)]
    rw [h2]
    show (init.skipped_files ++ (scanFileM f).skipped_files) ++ (runScan rest).skipped_files =
      init.skipped_files ++ (([] ++ (scanFileM f).skipped_files) ++ (runScan rest).skipped_files)
    rw [List.nil_append, List.append_assoc]

/-- Claim C9: file-level failures are recorded and non-fatal. A file that
cannot be opened contributes exactly one skip record and nothing else, and
the scan of the remaining files is unaffected (the shared stores decompose
over any split of the file list); a decode error on a line makes the whole
file a skip record and stops its processing (the remaining line results are
ignored), while matches already pushed for its earlier lines are retained
with no insertion into files-with-cards. -/
theorem error_handling_correct :
    (∀ p : List Char,
      scanFileM (p, FileInput.openFail) = ⟨[], [], [p]⟩) ∧
    (∀ fs1 fs2 : List (List Char × FileInput),
      (runScan (fs1 ++ fs2)).results = (runScan fs1).results ++ (runScan fs2).results ∧
      (runScan (fs1 ++ fs2)).skipped_files =
        (runScan fs1).skipped_files ++ (runScan fs2).skipped_files) ∧
    (∀ (p : List Char) (pre : List (List Char)) (rest : List (Option (List Char))),
      scanFileM (p, FileInput.content (pre.map some ++ none :: rest)) =
        ⟨(scanContent p 0 (pre.map some)).1, [], [p]⟩) := by
  refine ⟨fun p => rfl, ?_, ?_⟩
  · intro fs1 fs2
    constructor
    · show ((fs1 ++ fs2).foldl stepScan ⟨[], [], []⟩).results = _
      rw [List.foldl_append, runScan_results_acc fs2 (fs1.foldl stepScan ⟨[], [], []⟩)]
      rfl
    · show ((fs1 ++ fs2).foldl stepScan ⟨[], [], []⟩).skipped_files = _
      rw [List.foldl_append, runScan_skipped_acc fs2 (fs1.foldl stepScan ⟨[], [], []⟩)]
      rfl
  · intro p pre rest
    apply scanFileM_content_err
    rw [scanContent_decode_split p pre rest 0]

theorem insertPath_length (st : List (List Char)) (p : List Char) :
    (insertPath st p).length ≤ st.length + 1 := by
  unfold insertPath
  split_ifs
  · omega
  · rw [List.length_append]
    simp

theorem foldl_insertPath_length (ps : List (List Char)) :
    ∀ st : List (List Char),
      (ps.foldl insertPath st).length ≤ st.length + ps.length := by
  induction ps with
  | nil => intro st; simp
  | cons p ps' ih =>
    intro st
    have h1 := ih (insertPath st p)
    have h2 := insertPath_length st p
    show (ps'.foldl insertPath (insertPath st p)).length ≤ st.length + (p :: ps').length
    rw [List.length_cons]
    omega

theorem scanFileM_wc_length (f : List Char × FileInput) :
    (scanFileM f).files_with_cards.length ≤ 1 := by
  obtain ⟨p, input⟩ := f
  cases input with
  | openFail => simp [scanFileM]
  | content lines =>
    show ((if (scanContent p 0 lines).2
        then (⟨(scanContent p 0 lines).1, [], [p]⟩ : ScanState)
        else ⟨(scanContent p 0 lines).1,
          if (scanContent p 0 lines).1.isEmpty then [] else [p], []⟩)).files_with_cards.length ≤ 1
    split_ifs
    · simp
    · simp
    · simp

theorem runScan_wc_length (files : List (List Char × FileInput)) :
    ∀ init : ScanState,
      (files.foldl stepScan init).files_with_cards.length ≤
        init.files_with_cards.length + files.length := by
  induction files with
  | nil => intro init; simp
  | cons f rest ih =>
    intro init
    have h1 := ih (stepScan init f)
    have h2 : (stepScan init f).files_with_cards.length ≤
        init.files_with_cards.length + 1 := by
      show ((scanFileM f).files_with_cards.foldl insertPath
        init.files_with_cards).length ≤ _
      have h3 := foldl_insertPath_length (scanFileM f).files_with_cards init.files_with_cards
      have h4 := scanFileM_wc_length f
      omega
    show (rest.foldl stepScan (stepScan init f)).files_with_cards.length ≤
      init.files_with_cards.length + (f :: rest).length
    rw [List.length_cons]
    omega

theorem mem_insertPath (st : List (List Char)) (p q : List Char)
    (h : q ∈ insertPath st p) : q ∈ st ∨ q = p := by
  unfold insertPath at h
  split_ifs at h
  · exact Or.inl h
  · rcases List.mem_append.mp h with h1 | h2
    · exact Or.inl h1
    · exact Or.inr (by simpa using h2)

theorem mem_foldl_insertPath (ps : List (List Char)) :
    ∀ (st : List (List Char)) (q : List Char),
      q ∈ ps.foldl insertPath st → q ∈ st ∨ q ∈ ps := by
  induction ps with
  | nil => intro st q h; exact Or.inl h
  | cons p ps' ih =>
    intro st q h
    rcases ih (insertPath st p) q h with h1 | h2
    · rcases mem_insertPath st p q h1 with ha | hb
      · exact Or.inl ha
      · exact Or.inr (by rw [hb]; exact List.mem_cons_self p ps')
    · exact Or.inr (List.mem_cons_of_mem p h2)

theorem mem_runScan_wc (files : List (List Char × FileInput)) :
    ∀ (init : ScanState) (q : List Char),
      q ∈ (files.foldl stepScan init).files_with_cards →
      q ∈ init.files_with_cards ∨
        ∃ f ∈ files, q ∈ (scanFileM f).files_with_cards := by
  induction files with
  | nil => intro init q h; exact Or.inl h
  | cons f rest ih =>
    intro init q h
    rcases ih (stepScan init f) q h with h1 | ⟨g, hg, hq⟩
    · have h' : q ∈ (scanFileM f).files_with_cards.foldl insertPath
          init.files_with_cards := h1
      rcases mem_foldl_insertPath (scanFileM f).files_with_cards
          init.files_with_cards q h' with ha | hb
      · exact Or.inl ha
      · exact Or.inr ⟨f, List.mem_cons_self f rest, hb⟩
    · exact Or.inr ⟨g, List.mem_cons_of_mem f hg, hq⟩

theorem scanContent_file_path (fp : List Char) (lines : List (Option (List Char)))
    (idx : Nat) (m : CardMatch) (h : m ∈ (scanContent fp idx lines).1) :
    m.file_path = fp := by
  obtain ⟨j, line, _, hl⟩ := mem_scanContent fp lines idx m h
  obtain ⟨raw, _, hpc⟩ := mem_scanLine fp line (idx + j + 1) m hl
  obtain ⟨brand, _, hmk, _⟩ := mem_processCandidate fp line raw (idx + j + 1) m hpc
  rw [hmk]
  rfl

theorem scanFileM_wc_sound (f : List Char × FileInput) (q : List Char)
    (h : q ∈ (scanFileM f).files_with_cards) :
    q = f.1 ∧ ∃ m ∈ (scanFileM f).results, m.file_path = q := by
  obtain ⟨p, input⟩ := f
  cases input with
  | openFail => simp [scanFileM] at h
  | content lines =>
    have h' : q ∈ ((if (scanContent p 0 lines).2
        then (⟨(scanContent p 0 lines).1, [], [p]⟩ : ScanState)
        else ⟨(scanContent p 0 lines).1,
          if (scanContent p 0 lines).1.isEmpty then [] else [p],
            []⟩)).files_with_cards := h
    by_cases hb : (scanContent p 0 lines).2 = true
    · rw [if_pos hb] at h'
      exact absurd h' (by simp)
    · rw [if_neg hb] at h'
      by_cases he : (scanContent p 0 lines).1.isEmpty = true
      · rw [if_pos he] at h'
        exact absurd h' (by simp)
      · rw [if_neg he] at h'
        have hq : q = p := by simpa using h'
        refine ⟨hq, ?_⟩
        have hne : (scanContent p 0 lines).1 ≠ [] := by
          intro hnil
          rw [hnil] at he
          exact he rfl
        obtain ⟨m, hm⟩ := List.exists_mem_of_ne_nil _ hne
        refine ⟨m, ?_, by rw [hq]; exact scanContent_file_path p lines 0 m hm⟩
        have hres : (scanFileM (p, FileInput.content lines)).results =
            (scanContent p 0 lines).1 := by
          show (if (scanContent p 0 lines).2
              then (⟨(scanContent p 0 lines).1, [], [p]⟩ : ScanState)
              else ⟨(scanContent p 0 lines).1,
                if (scanContent p 0 lines).1.isEmpty then [] else [p],
                  []⟩).results = _
          rw [if_neg hb]
        rw [hres]
        exact hm

theorem scanFileM_results_in_runScan (files : List (List Char × FileInput)) :
    ∀ (init : ScanState) (f : List Char × FileInput), f ∈ files →
      ∀ m ∈ (scanFileM f).results, m ∈ (files.foldl stepScan init).results := by
  induction files with
  | nil =>
    intro init f hf
    exact absurd hf (by simp)
  | cons g rest ih =>
    intro init f hf m hm
    rcases List.mem_cons.mp hf with rfl | hf'
    · show m ∈ (rest.foldl stepScan (stepScan init f)).results
      rw [runScan_results_acc rest (stepScan init f)]
      apply List.mem_append_left
      show m ∈ init.results ++ (scanFileM f).results
      exact List.mem_append_right _ hm
    · exact ih (stepScan init g) f hf' m hm

/-- Claim C10: every path in the files-with-cards set is the path of a
scanned target and the set holds distinct contributions (one at most per
file), so its size never exceeds the number of scanned targets; hence
`clean_files = total_files_scanned - total_files_with_cards` is an exact
subtraction (the usize subtraction cannot underflow). -/
theorem files_with_cards_le_scanned :
    ∀ files : List (List Char × FileInput),
      (∀ q ∈ (runScan files).files_with_cards, ∃ f ∈ files, f.1 = q) ∧
      (runScan files).files_with_cards.length ≤ files.length ∧
      (summarize files).clean_files + (summarize files).total_files_with_cards =
        (summarize files).total_files_scanned := by
  intro files
  have hle : (runScan files).files_with_cards.length ≤ files.length := by
    have := runScan_wc_length files ⟨[], [], []⟩
    simpa using this
  refine ⟨?_, hle, ?_⟩
  · intro q hq
    rcases mem_runScan_wc files ⟨[], [], []⟩ q hq with h0 | ⟨f, hf, hq'⟩
    · exact absurd h0 (by simp)
    · exact ⟨f, hf, ((scanFileM_wc_sound f q hq').1).symm⟩
  · show files.length - (runScan files).files_with_cards.length +
      (runScan files).files_with_cards.length = files.length
    omega

/-- Witness for `files_with_cards_le_scanned` at a concrete one-file scan. -/
theorem files_with_cards_le_scanned_witness :
    ∃ f ∈ [("a.txt".toList, FileInput.content [some "4532015112830366".toList])],
      f.1 = "a.txt".toList :=
  (files_with_cards_le_scanned
    [("a.txt".toList, FileInput.content [some "4532015112830366".toList])]).1
    "a.txt".toList (by decide)

/-- Claim C8 (amended): for every completed scan, the code sets
`clean_files = total_files_scanned - total_files_with_cards`, the
files-with-cards count never exceeds the scanned count so
`clean_files + total_files_with_cards = total_files_scanned`, and every
path in files-with-cards is the path of some match. Skipped files are not
subtracted: a skipped file is also counted as clean, so the three
categories do not partition the scanned files, and a decode-interrupted
file can contribute matches without joining files-with-cards. -/
theorem scan_summary_amended :
    ∀ files : List (List Char × FileInput),
      (summarize files).clean_files =
        (summarize files).total_files_scanned -
          (summarize files).total_files_with_cards ∧
      (summarize files).clean_files + (summarize files).total_files_with_cards =
        (summarize files).total_files_scanned ∧
      ∀ q ∈ (runScan files).files_with_cards,
        ∃ m ∈ (runScan files).results, m.file_path = q := by
  intro files
  have hle : (runScan files).files_with_cards.length ≤ files.length := by
    have := runScan_wc_length files ⟨[], [], []⟩
    simpa using this
  refine ⟨rfl, ?_, ?_⟩
  · show files.length - (runScan files).files_with_cards.length +
      (runScan files).files_with_cards.length = files.length
    omega
  intro q hq
  rcases mem_runScan_wc files ⟨[], [], []⟩ q hq with h0 | ⟨f, hf, hq'⟩
  · exact absurd h0 (by simp)
  · obtain ⟨_, m, hm, hpath⟩ := scanFileM_wc_sound f q hq'
    exact ⟨m, scanFileM_results_in_runScan files ⟨[], [], []⟩ f hf m hm, hpath⟩

/-- Witness for `scan_summary_amended` at a scan with one match, one clean
file and one skipped file. -/
theorem scan_summary_amended_witness :
    (summarize [("a.txt".toList, FileInput.content [some "4532015112830366".toList]),
        ("b.txt".toList, FileInput.content [some "hello".toList]),
        ("c.txt".toList, FileInput.openFail)]).clean_files +
      (summarize [("a.txt".toList, FileInput.content [some "4532015112830366".toList]),
        ("b.txt".toList, FileInput.content [some "hello".toList]),
        ("c.txt".toList, FileInput.openFail)]).total_files_with_cards =
      (summarize [("a.txt".toList, FileInput.content [some "4532015112830366".toList]),
        ("b.txt".toList, FileInput.content [some "hello".toList]),
        ("c.txt".toList, FileInput.openFail)]).total_files_scanned :=
  (scan_summary_amended
    [("a.txt".toList, FileInput.content [some "4532015112830366".toList]),
     ("b.txt".toList, FileInput.content [some "hello".toList]),
     ("c.txt".toList, FileInput.openFail)]).2.1

/-- Counterexample to claim C8 as stated: in a scan of three files (one with
a card, one clean, one unreadable) the code reports clean_files = 2, so
clean + withCards + skipped = 4 differs from filesScanned = 3 (the skipped
file is also counted clean, the three sets do not partition the scanned
files); and a file whose second line is undecodable contributes a match
path but never joins files-with-cards, so files-with-cards (0) is not the
number of distinct paths in the match list (1). -/
theorem scan_partition_claim_false :
    ((summarize [("a.txt".toList, FileInput.content [some "4532015112830366".toList]),
        ("b.txt".toList, FileInput.content [some "hello".toList]),
        ("c.txt".toList, FileInput.openFail)]).clean_files +
      (summarize [("a.txt".toList, FileInput.content [some "4532015112830366".toList]),
        ("b.txt".toList, FileInput.content [some "hello".toList]),
        ("c.txt".toList, FileInput.openFail)]).total_files_with_cards +
      (summarize [("a.txt".toList, FileInput.content [some "4532015112830366".toList]),
        ("b.txt".toList, FileInput.content [some "hello".toList]),
        ("c.txt".toList, FileInput.openFail)]).skipped_files.length ≠
      (summarize [("a.txt".toList, FileInput.content [some "4532015112830366".toList]),
        ("b.txt".toList, FileInput.content [some "hello".toList]),
        ("c.txt".toList, FileInput.openFail)]).total_files_scanned) ∧
    ((runScan [("a.txt".toList, FileInput.content
          [some "4532015112830366".toList, none])]).results.map
        (fun m => m.file_path)).dedup.length = 1 ∧
    (runScan [("a.txt".toList, FileInput.content
        [some "4532015112830366".toList, none])]).files_with_cards.length = 0 := by
  exact ⟨by decide, by decide, by decide⟩

/-- Witness for `error_handling_correct`: a concrete unreadable file yields
exactly one skip record and nothing else. -/
theorem error_handling_correct_witness :
    scanFileM ("x.txt".toList, FileInput.openFail) =
      ⟨[], [], ["x.txt".toList]⟩ :=
  error_handling_correct.1 "x.txt".toList
